import Mathlib

/-!
Verification of `cursorruler.py`: a build-time aggregator that selects source
files, strips comments/whitespace from structured file types with a
hand-rolled single-pass scanner, concatenates the results with path headers,
and splices the combined document into a template.

The embedding below follows the Python source closely:
* `scanFuel`/`scanLoop` embed the character scanner of
  `process_file_content` (lines 61-115).  The Python `while i < len(content)`
  loop is modelled by recursion; since every iteration consumes at least one
  character, recursion on a `Nat` bound instantiated with the input length is
  a faithful total model (`scanFuel_congr` shows the bound is irrelevant as
  long as it is at least the input length).  The Python `buffer` list is kept
  in reversed order (most recently emitted character first), so
  `buffer[-1]` is the head of the Lean list.
* Characters whose literals would be awkward are named (`bslash`, `squote`,
  `btick`).  `pyIsSpace` models `str.isspace` (ASCII whitespace; the inputs
  the tool handles are source text, unicode space classes are not modelled).
-/

def pyIsSpace (c : Char) : Bool :=
  c = ' ' || c = '\t' || c = '\n' || c = '\r' || c = '\x0b' || c = '\x0c'

def bslash : Char := '\\'

def squote : Char := Char.ofNat 39

def btick : Char := Char.ofNat 96

/-- `content[i] in ['"', "'", "`"]` from line 95. -/
def isQuoteChar (c : Char) : Bool := c = '"' || c = squote || c = btick

/-- `if buffer and not buffer[-1].isspace()` from line 107, applied to the
head of the reversed buffer. -/
def lastNotSpace : Option Char → Bool
  | none => false
  | some l => !pyIsSpace l

/-- The mutable state of the scanner loop in `process_file_content`
(lines 68-72): `in_multiline_comment`, `in_string`, `string_char`, `buffer`
(reversed). -/
structure ScanState where
  inComment : Bool
  inString : Bool
  stringChar : Option Char
  buffer : List Char
  deriving DecidableEq, Repr

/-- One-for-one embedding of the scanner loop body (lines 74-114).  The first
argument bounds the number of loop iterations; each iteration consumes at
least one input character, so any bound `≥` the input length yields the loop's
result.  `prev` is `content[i-1]` (`none` at position 0). -/
def scanFuel : Nat → ScanState → Option Char → List Char → ScanState
  | 0, s, _, _ => s
  | _ + 1, s, _, [] => s
  | n + 1, s, prev, c :: rest =>
    -- lines 76-79: `content[i:i+2] == "/*" and not in_string`
    if c = '/' ∧ rest.head? = some '*' ∧ s.inString = false then
      scanFuel n { s with inComment := true } (some '*') rest.tail
    -- lines 80-83: `content[i:i+2] == "*/" and in_multiline_comment`
    else if c = '*' ∧ rest.head? = some '/' ∧ s.inComment = true then
      scanFuel n { s with inComment := false } (some '/') rest.tail
    -- lines 84-86: skip a character inside a multi-line comment
    else if s.inComment = true then
      scanFuel n s (some c) rest
    -- lines 89-92: `content[i:i+2] == "//" and not in_string`; the inner
    -- `while` advances `i` to the next newline (or to the end of input)
    else if c = '/' ∧ rest.head? = some '/' ∧ s.inString = false then
      scanFuel n s (((c :: rest).takeWhile fun x => x ≠ '\n').getLast?)
        ((c :: rest).dropWhile fun x => x ≠ '\n')
    -- lines 95-103: quote handling
    else if isQuoteChar c = true ∧ prev ≠ some bslash then
      (if s.inString = false then
        scanFuel n { s with inString := true, stringChar := some c,
                            buffer := c :: s.buffer } (some c) rest
      else if some c = s.stringChar then
        scanFuel n { s with inString := false, buffer := c :: s.buffer }
          (some c) rest
      else
        scanFuel n { s with buffer := c :: s.buffer } (some c) rest)
    -- lines 106-110: whitespace collapsing outside strings
    else if pyIsSpace c = true ∧ s.inString = false then
      (if lastNotSpace s.buffer.head? = true then
        scanFuel n { s with buffer := ' ' :: s.buffer } (some c) rest
      else
        scanFuel n s (some c) rest)
    -- lines 112-113: default, emit the character
    else
      scanFuel n { s with buffer := c :: s.buffer } (some c) rest

theorem scanFuel_nil (n : Nat) (s : ScanState) (prev : Option Char) :
    scanFuel n s prev [] = s := by
  cases n <;> rfl

theorem length_dropWhile_le_self (p : Char → Bool) (l : List Char) :
    (l.dropWhile p).length ≤ l.length := by
  induction l with
  | nil => simp
  | cons c rest ih =>
    by_cases h : p c
    · rw [List.dropWhile_cons_of_pos h]
      exact Nat.le_trans ih (Nat.le_succ _)
    · rw [List.dropWhile_cons_of_neg h]

/-- The fuel bound is irrelevant as soon as it dominates the input length:
the scanner consumes at least one character per iteration. -/
theorem scanFuel_congr (n₁ : Nat) :
    ∀ (l : List Char) (s : ScanState) (prev : Option Char) (n₂ : Nat),
      l.length ≤ n₁ → l.length ≤ n₂ →
      scanFuel n₁ s prev l = scanFuel n₂ s prev l := by
  induction n₁ with
  | zero =>
    intro l s prev n₂ h1 _
    have : l = [] := List.length_eq_zero.mp (Nat.le_zero.mp h1)
    subst this
    rw [scanFuel_nil, scanFuel_nil]
  | succ n ih =>
    intro l s prev n₂ h1 h2
    cases l with
    | nil => rw [scanFuel_nil, scanFuel_nil]
    | cons c rest =>
      cases n₂ with
      | zero => simp at h2
      | succ m =>
        have hr1 : rest.length ≤ n := Nat.le_of_succ_le_succ h1
        have hr2 : rest.length ≤ m := Nat.le_of_succ_le_succ h2
        have htail1 : rest.tail.length ≤ n :=
          Nat.le_trans (List.length_tail rest ▸ Nat.sub_le _ _) hr1
        have htail2 : rest.tail.length ≤ m :=
          Nat.le_trans (List.length_tail rest ▸ Nat.sub_le _ _) hr2
        simp only [scanFuel]
        split_ifs with hb1 hb2 hb3 hb4 hb5 hb5a hb5b hb6 hb6a
        · exact ih _ _ _ _ htail1 htail2
        · exact ih _ _ _ _ htail1 htail2
        · exact ih _ _ _ _ hr1 hr2
        · obtain ⟨hc, -, -⟩ := hb4
          subst hc
          have heq : List.dropWhile (fun x => decide (x ≠ '\n')) ('/' :: rest)
              = List.dropWhile (fun x => decide (x ≠ '\n')) rest := rfl
          rw [heq]
          exact ih _ _ _ _
            (Nat.le_trans (length_dropWhile_le_self _ rest) hr1)
            (Nat.le_trans (length_dropWhile_le_self _ rest) hr2)
        all_goals exact ih _ _ _ _ hr1 hr2

/-- The scanner loop of `process_file_content` (lines 74-114), run to
completion on `content`. -/
def scanLoop (s : ScanState) (prev : Option Char) (l : List Char) : ScanState :=
  scanFuel l.length s prev l

theorem scanLoop_nil (s : ScanState) (prev : Option Char) :
    scanLoop s prev [] = s := rfl

/-- Single-step unfolding of the scanner loop, mirroring the branch structure
of the Python loop body. -/
theorem scanLoop_cons (s : ScanState) (prev : Option Char) (c : Char)
    (rest : List Char) :
    scanLoop s prev (c :: rest) =
      if c = '/' ∧ rest.head? = some '*' ∧ s.inString = false then
        scanLoop { s with inComment := true } (some '*') rest.tail
      else if c = '*' ∧ rest.head? = some '/' ∧ s.inComment = true then
        scanLoop { s with inComment := false } (some '/') rest.tail
      else if s.inComment = true then
        scanLoop s (some c) rest
      else if c = '/' ∧ rest.head? = some '/' ∧ s.inString = false then
        scanLoop s (((c :: rest).takeWhile fun x => x ≠ '\n').getLast?)
          ((c :: rest).dropWhile fun x => x ≠ '\n')
      else if isQuoteChar c = true ∧ prev ≠ some bslash then
        (if s.inString = false then
          scanLoop { s with inString := true, stringChar := some c,
                            buffer := c :: s.buffer } (some c) rest
        else if some c = s.stringChar then
          scanLoop { s with inString := false, buffer := c :: s.buffer }
            (some c) rest
        else
          scanLoop { s with buffer := c :: s.buffer } (some c) rest)
      else if pyIsSpace c = true ∧ s.inString = false then
        (if lastNotSpace s.buffer.head? = true then
          scanLoop { s with buffer := ' ' :: s.buffer } (some c) rest
        else
          scanLoop s (some c) rest)
      else
        scanLoop { s with buffer := c :: s.buffer } (some c) rest := by
  show scanFuel (rest.length + 1) s prev (c :: rest) = _
  simp only [scanFuel]
  unfold scanLoop
  split_ifs with hb1 hb2 hb3 hb4
  · exact scanFuel_congr _ _ _ _ _
      (List.length_tail rest ▸ Nat.sub_le _ _) (Nat.le_refl _)
  · exact scanFuel_congr _ _ _ _ _
      (List.length_tail rest ▸ Nat.sub_le _ _) (Nat.le_refl _)
  · rfl
  · obtain ⟨hc, -, -⟩ := hb4
    subst hc
    have heq : List.dropWhile (fun x => decide (x ≠ '\n')) ('/' :: rest)
        = List.dropWhile (fun x => decide (x ≠ '\n')) rest := rfl
    rw [heq]
    exact scanFuel_congr _ _ _ _ _ (length_dropWhile_le_self _ rest)
      (Nat.le_refl _)
  all_goals rfl

/-- The initial state of the scanner loop (lines 68-72). -/
def initState : ScanState := ⟨false, false, none, []⟩

/-- Python `str.strip()` on a character list (ASCII whitespace). -/
def pyStripList (l : List Char) : List Char :=
  (((l.dropWhile pyIsSpace).reverse).dropWhile pyIsSpace).reverse

/-- The structured-content normalizer: the scanner loop followed by
`"".join(buffer).strip()` (line 115). -/
def normalizeContent (content : List Char) : List Char :=
  pyStripList ((scanLoop initState none content).buffer.reverse)

/-- `process_file_content` (lines 61-124) with the dead `elif` branch
removed: the `elif file_ext == ".json"` arm at line 117 can never run because
`".json"` is already matched by the list at line 65
(see `process_file_content_chain_dead`). -/
def process_file_content (ext : String) (content : List Char) : List Char :=
  if [".dart", ".yaml", ".json"].contains ext = true then
    normalizeContent content
  else
    content

/-- The literal branch structure of `process_file_content` (lines 61-124).
The JSON re-serialization of line 119 (`json.dumps(json.loads(content))`)
sits in an unreachable branch, so it is kept abstract as a parameter
`jsonReser`: the function's value cannot depend on it. -/
def process_file_content_chain (jsonReser : List Char → List Char)
    (ext : String) (content : List Char) : List Char :=
  if [".dart", ".yaml", ".json"].contains ext = true then
    normalizeContent content
  else if ext = ".json" then
    jsonReser content
  else
    content

/-- The `elif file_ext == ".json"` branch at line 117 is dead code: reaching
it requires `ext ∉ [".dart", ".yaml", ".json"]` and `ext = ".json"` at once. -/
theorem process_file_content_chain_dead (jsonReser : List Char → List Char)
    (ext : String) (content : List Char) :
    process_file_content_chain jsonReser ext content
      = process_file_content ext content := by
  unfold process_file_content_chain process_file_content
  by_cases h : [".dart", ".yaml", ".json"].contains ext = true
  · rw [if_pos h, if_pos h]
  · rw [if_neg h, if_neg h]
    by_cases hj : ext = ".json"
    · exfalso
      apply h
      subst hj
      rfl
    · rw [if_neg hj]

/-- `true` iff the text contains a line-comment or block-comment opener
(`//` or `/*`) as an adjacent character pair. -/
def hasCommentSeq : List Char → Bool
  | [] => false
  | [_] => false
  | a :: b :: rest => (a = '/' && (b = '/' || b = '*')) || hasCommentSeq (b :: rest)

/-- `true` iff the text contains the pair `*/`. -/
def hasStarSlash : List Char → Bool
  | [] => false
  | [_] => false
  | a :: b :: rest => (a = '*' && b = '/') || hasStarSlash (b :: rest)

theorem hasCommentSeq_tail {a : Char} {l : List Char}
    (h : hasCommentSeq (a :: l) = false) : hasCommentSeq l = false := by
  cases l with
  | nil => rfl
  | cons b t =>
    simp only [hasCommentSeq, Bool.or_eq_false_iff] at h
    exact h.2

theorem hasCommentSeq_pair {a b : Char} {l : List Char}
    (h : hasCommentSeq (a :: b :: l) = false) :
    ¬(a = '/' ∧ (b = '/' ∨ b = '*')) := by
  simp only [hasCommentSeq, Bool.or_eq_false_iff, Bool.and_eq_false_iff] at h
  rintro ⟨rfl, hb⟩
  rcases h.1 with h1 | h1
  · simp at h1
  · rcases hb with rfl | rfl <;> simp at h1

theorem hasStarSlash_tail {a : Char} {l : List Char}
    (h : hasStarSlash (a :: l) = false) : hasStarSlash l = false := by
  cases l with
  | nil => rfl
  | cons b t =>
    simp only [hasStarSlash, Bool.or_eq_false_iff] at h
    exact h.2

/-- The scanner's quote balance: the `in_string` flag at the end of the
scanner loop. -/
def finalInString (content : List Char) : Bool :=
  (scanLoop initState none content).inString

theorem set_inComment_eq_self {s : ScanState} {b : Bool} (h : s.inComment = b) :
    { s with inComment := b } = s := by
  cases s
  simp_all

/-! ### C1: the `.json` special case -/

/-- The characters of `{"a": 1}`. -/
def jsonExampleIn : List Char := ['\x7b', '"', 'a', '"', ':', ' ', '1', '\x7d']

/-- The characters of `{"a":1}` (the canonical compact serialization). -/
def jsonCanonicalOut : List Char := ['\x7b', '"', 'a', '"', ':', '1', '\x7d']

/-- C1: for a `.json` file containing the valid JSON text `{"a": 1}`,
`process_file_content` does **not** return the canonical compact
re-serialization `{"a":1}`: whatever the JSON re-serializer of line 119
would compute, the function returns the generic scanner output, here the
unchanged text `{"a": 1}` (with the space after the colon), because the
`elif file_ext == ".json"` branch at line 117 is unreachable. -/
theorem c1_json_reserialize_never_runs :
    ∀ jsonReser : List Char → List Char,
      process_file_content_chain jsonReser ".json" jsonExampleIn = jsonExampleIn
        ∧ process_file_content_chain jsonReser ".json" jsonExampleIn
            ≠ jsonCanonicalOut := by
  intro jsonReser
  rw [process_file_content_chain_dead]
  exact ⟨by decide, by decide⟩

/-! ### C5: strings suppress comment detection -/

/-- C5: while the scanner is inside a string (`in_string = true`), a
comment-like two-character sequence (`//` or `/*`) is emitted verbatim: the
block-comment-start branch and the line-comment branch both require
`not in_string`, so neither fires, and both characters reach the output
buffer unchanged with all state other than the buffer intact. -/
theorem c5_string_suppresses_comment_start (s : ScanState) (prev : Option Char)
    (c₂ : Char) (rest : List Char) (hs : s.inString = true)
    (hc : s.inComment = false) (h2 : c₂ = '/' ∨ c₂ = '*') :
    scanLoop s prev ('/' :: c₂ :: rest)
      = scanLoop { s with buffer := c₂ :: '/' :: s.buffer } (some c₂) rest := by
  have hq : isQuoteChar '/' = false := by decide
  have hsp : pyIsSpace '/' = false := by decide
  rw [scanLoop_cons]
  rw [if_neg (by simp [hs]), if_neg (by simp [hc]), if_neg (by simp [hc]),
    if_neg (by simp [hs]), if_neg (by simp [hq]), if_neg (by simp [hsp])]
  rcases h2 with rfl | rfl
  · rw [scanLoop_cons]
    rw [if_neg (by simp [hs]), if_neg (by simp), if_neg (by simp [hc]),
      if_neg (by simp [hs]), if_neg (by simp [hq]), if_neg (by simp [hsp])]
  · have hq2 : isQuoteChar '*' = false := by decide
    have hsp2 : pyIsSpace '*' = false := by decide
    rw [scanLoop_cons]
    rw [if_neg (by simp), if_neg (by simp [hc]), if_neg (by simp [hc]),
      if_neg (by simp), if_neg (by simp [hq2]), if_neg (by simp [hsp2])]

/-- Witness for C5: inside a double-quoted string, the two slashes of `//`
are both emitted and the scanner stays in the string. -/
theorem c5_witness :
    (⟨false, true, some '"', ['x']⟩ : ScanState).inString = true
      ∧ (⟨false, true, some '"', ['x']⟩ : ScanState).inComment = false
      ∧ scanLoop ⟨false, true, some '"', ['x']⟩ none ['/', '/']
          = scanLoop ⟨false, true, some '"', ['/', '/', 'x']⟩ (some '/') [] :=
  ⟨rfl, rfl,
    c5_string_suppresses_comment_start ⟨false, true, some '"', ['x']⟩ none '/'
      [] rfl rfl (Or.inl rfl)⟩

/-! ### C6: block comments are removed wholesale -/

/-- While in a block comment with `in_string = false`, the scanner consumes
the comment body up to and including the closing `*/` without emitting
anything, provided the body does not itself contain the pair `*/` and does
not end in `/` (either would make the candidate closing marker ambiguous).
Scanning then resumes after the marker with the comment flag cleared. -/
theorem scanLoop_in_comment_skip :
    ∀ (n : Nat) (body : List Char) (s : ScanState) (prev : Option Char)
      (rest : List Char),
      body.length ≤ n → s.inComment = true → s.inString = false →
      hasStarSlash body = false → body.getLast? ≠ some '/' →
      scanLoop s prev (body ++ '*' :: '/' :: rest)
        = scanLoop { s with inComment := false } (some '/') rest := by
  intro n
  induction n with
  | zero =>
    intro body s prev rest hlen hcom hstr _ _
    have : body = [] := List.length_eq_zero.mp (Nat.le_zero.mp hlen)
    subst this
    rw [List.nil_append, scanLoop_cons]
    rw [if_neg (by simp), if_pos ⟨rfl, rfl, hcom⟩]
    rfl
  | succ n ih =>
    intro body s prev rest hlen hcom hstr hss hlast
    cases body with
    | nil =>
      rw [List.nil_append, scanLoop_cons]
      rw [if_neg (by simp), if_pos ⟨rfl, rfl, hcom⟩]
      rfl
    | cons b body' =>
      rw [List.cons_append, scanLoop_cons]
      by_cases hb1 : b = '/' ∧ (body' ++ '*' :: '/' :: rest).head? = some '*'
          ∧ s.inString = false
      · obtain ⟨rfl, hhead, -⟩ := hb1
        cases body' with
        | nil =>
          exfalso
          exact hlast rfl
        | cons b2 t =>
          have hb2 : b2 = '*' := by
            simpa using hhead
          subst hb2
          rw [if_pos ⟨rfl, hhead, hstr⟩]
          simp only [List.tail_cons, List.cons_append]
          have hss' : hasStarSlash t = false :=
            hasStarSlash_tail (hasStarSlash_tail hss)
          have hlast' : t.getLast? ≠ some '/' := by
            cases t with
            | nil => simp
            | cons u t' =>
              rw [List.getLast?_cons_cons, List.getLast?_cons_cons] at hlast
              exact hlast
          exact ih t { s with inComment := true } (some '*') rest
            (by
              simp only [List.length_cons] at hlen
              omega)
            rfl (by simpa using hstr) hss' hlast'
      · rw [if_neg hb1]
        by_cases hb2 : b = '*' ∧ (body' ++ '*' :: '/' :: rest).head? = some '/'
            ∧ s.inComment = true
        · exfalso
          obtain ⟨rfl, hhead, -⟩ := hb2
          cases body' with
          | nil => simp at hhead
          | cons b2 t =>
            have : b2 = '/' := by simpa using hhead
            subst this
            simp [hasStarSlash] at hss
        · rw [if_neg hb2, if_pos hcom]
          have hss' : hasStarSlash body' = false := hasStarSlash_tail hss
          have hlast' : body'.getLast? ≠ some '/' := by
            cases body' with
            | nil => simp
            | cons u t' =>
              rw [List.getLast?_cons_cons] at hlast
              exact hlast
          exact ih body' s (some b) rest
            (by
              simp only [List.length_cons] at hlen
              omega)
            hcom hstr hss' hlast'

/-- C6: a block comment `/* body */` — whose body may contain any characters
including line breaks, as long as it does not contain the closing pair `*/`
and does not end in `/` — contributes nothing to the output: every character
strictly between the markers is dropped and the marker characters themselves
are not emitted; scanning resumes right after the closing marker in the
original state. -/
theorem c6_block_comment_removed (s : ScanState) (prev : Option Char)
    (body rest : List Char) (hstr : s.inString = false)
    (hcom : s.inComment = false) (hss : hasStarSlash body = false)
    (hlast : body.getLast? ≠ some '/') :
    scanLoop s prev ('/' :: '*' :: (body ++ '*' :: '/' :: rest))
      = scanLoop s (some '/') rest := by
  rw [scanLoop_cons, if_pos ⟨rfl, rfl, hstr⟩]
  simp only [List.tail_cons]
  rw [scanLoop_in_comment_skip body.length body { s with inComment := true }
    (some '*') rest (Nat.le_refl _) rfl (by simpa using hstr) hss hlast]
  have : ({ { s with inComment := true } with inComment := false } : ScanState)
      = s := by
    cases s
    simp_all
  rw [this]

/-- Witness for C6: the comment `/*a↵b*/` (with an embedded newline) is
removed entirely and scanning continues at `x`. -/
theorem c6_witness :
    hasStarSlash ['a', '\n', 'b'] = false
      ∧ ['a', '\n', 'b'].getLast? ≠ some '/'
      ∧ scanLoop initState none
          ('/' :: '*' :: (['a', '\n', 'b'] ++ '*' :: '/' :: ['x']))
          = scanLoop initState (some '/') ['x'] :=
  ⟨by decide, by decide,
    c6_block_comment_removed initState none ['a', '\n', 'b'] ['x'] rfl rfl
      (by decide) (by decide)⟩

/-! ### C10: the scanner loop terminates -/

/-- The loop state of `process_file_content` with the explicit index `i`
of the Python `while` loop (lines 68-73), field names as in the source. -/
structure PyLoopState where
  i : Nat
  in_multiline_comment : Bool
  in_string : Bool
  string_char : Option Char
  buffer : List Char
  deriving DecidableEq, Repr

/-- `content[i : i + 2]`. -/
def slice2 (content : List Char) (i : Nat) : List Char :=
  (content.drop i).take 2

/-- One iteration of the `while i < len(content)` loop body (lines 74-113),
index arithmetic as in the source.  The inner `while` of the line-comment
branch (lines 90-91) runs to completion within the iteration, advancing `i`
to the next newline or to the end of input. -/
def pyStep (content : List Char) (s : PyLoopState) : PyLoopState :=
  if slice2 content s.i = ['/', '*'] ∧ s.in_string = false then
    { s with in_multiline_comment := true, i := s.i + 2 }
  else if slice2 content s.i = ['*', '/'] ∧ s.in_multiline_comment = true then
    { s with in_multiline_comment := false, i := s.i + 2 }
  else if s.in_multiline_comment = true then
    { s with i := s.i + 1 }
  else if slice2 content s.i = ['/', '/'] ∧ s.in_string = false then
    { s with i := s.i + ((content.drop s.i).takeWhile fun c => c ≠ '\n').length }
  else
    match content[s.i]? with
    | none => s
    | some c =>
      if isQuoteChar c = true ∧ (s.i = 0 ∨ content[s.i - 1]? ≠ some bslash) then
        (if s.in_string = false then
          { s with in_string := true, string_char := some c,
                   buffer := c :: s.buffer, i := s.i + 1 }
        else if some c = s.string_char then
          { s with in_string := false, buffer := c :: s.buffer, i := s.i + 1 }
        else
          { s with buffer := c :: s.buffer, i := s.i + 1 })
      else if pyIsSpace c = true ∧ s.in_string = false then
        (if lastNotSpace s.buffer.head? = true then
          { s with buffer := ' ' :: s.buffer, i := s.i + 1 }
        else
          { s with i := s.i + 1 })
      else
        { s with buffer := c :: s.buffer, i := s.i + 1 }

/-- C10: on every iteration of the scanner's `while` loop the index `i`
strictly increases (every branch advances `i` by at least one while
`i < len(content)`), so the loop — and with it `process_file_content` —
terminates on every input. -/
theorem c10_scanner_index_increases (content : List Char) (s : PyLoopState)
    (h : s.i < content.length) : s.i < (pyStep content s).i := by
  by_cases h1 : slice2 content s.i = ['/', '*'] ∧ s.in_string = false
  · rw [pyStep, if_pos h1]
    simp
  · rw [pyStep, if_neg h1]
    by_cases h2 : slice2 content s.i = ['*', '/']
        ∧ s.in_multiline_comment = true
    · rw [if_pos h2]
      simp
    · rw [if_neg h2]
      by_cases h3 : s.in_multiline_comment = true
      · rw [if_pos h3]
        simp
      · rw [if_neg h3]
        by_cases h4 : slice2 content s.i = ['/', '/'] ∧ s.in_string = false
        · rw [if_pos h4]
          obtain ⟨hsl, -⟩ := h4
          simp only [slice2] at hsl
          have hlen : 1 ≤ ((content.drop s.i).takeWhile
              fun c => decide (c ≠ '\n')).length := by
            cases hd : content.drop s.i with
            | nil => rw [hd] at hsl; simp at hsl
            | cons c t =>
              rw [hd] at hsl
              have hc : c = '/' := by
                simp [List.take_succ_cons] at hsl
                exact hsl.1
              subst hc
              rw [List.takeWhile_cons_of_pos (by decide)]
              simp
          simp only []
          omega
        · rw [if_neg h4]
          rcases hx : content[s.i]? with - | c
          · exact absurd (List.getElem?_eq_none_iff.mp hx) (Nat.not_le.mpr h)
          · dsimp only
            split_ifs <;> simp

/-- Witness for C10: a concrete step from index 0 on the input `ab`. -/
theorem c10_witness :
    (⟨0, false, false, none, []⟩ : PyLoopState).i < ['a', 'b'].length
      ∧ (⟨0, false, false, none, []⟩ : PyLoopState).i
          < (pyStep ['a', 'b'] ⟨0, false, false, none, []⟩).i :=
  ⟨by decide, c10_scanner_index_increases ['a', 'b']
    ⟨0, false, false, none, []⟩ (by decide)⟩

/-! ### File selection (`main`, lines 131-217) -/

/-- Python substring membership `pat in s` on character lists. -/
def hasOcc (pat : List Char) : List Char → Bool
  | [] => pat.isEmpty
  | c :: rest => ((c :: rest).take pat.length = pat : Bool) || hasOcc pat rest

/-- Python `pat in str(file)`: literal substring containment. -/
def strContains (s pat : String) : Bool := hasOcc pat.toList s.toList

/-- Lexicographic character-list comparison used to model `sorted(...)` on
paths.  (Python sorts `Path` objects; the claims about selection depend only
on membership, which insertion sort preserves — see `mem_sortStrings`.) -/
def charListLe : List Char → List Char → Bool
  | [], _ => true
  | _ :: _, [] => false
  | a :: as, b :: bs =>
    if a < b then true else if b < a then false else charListLe as bs

def pathLe (a b : String) : Bool := charListLe a.toList b.toList

def insertLe (x : String) : List String → List String
  | [] => [x]
  | y :: rest => if pathLe x y then x :: y :: rest else y :: insertLe x rest

/-- `sorted(matching_files)` (line 215), as an insertion sort. -/
def sortStrings : List String → List String
  | [] => []
  | x :: rest => insertLe x (sortStrings rest)

theorem mem_insertLe {x y : String} {l : List String} :
    y ∈ insertLe x l ↔ y = x ∨ y ∈ l := by
  induction l with
  | nil => simp [insertLe]
  | cons c rest ih =>
    by_cases h : pathLe x c
    · simp [insertLe, h]
    · simp [insertLe, h, ih]
      tauto

theorem mem_sortStrings {y : String} {l : List String} :
    y ∈ sortStrings l ↔ y ∈ l := by
  induction l with
  | nil => simp [sortStrings]
  | cons c rest ih => simp [sortStrings, mem_insertLe, ih]

/-- The selection pipeline of `main` (lines 184-217): the exclude-glob union
(lines 185-187), the include-glob union minus the excluded set
(lines 190-194), the discards of the script path and output path
(lines 196-198), the `sorted(...)` of line 215, and the substring filter of
line 216.  `glob` abstracts `Path().glob` (the state of the filesystem);
paths are modelled by their string form. -/
def selectFiles (glob : String → List String) (scriptPath outputPath : String)
    (includePats excludePats excludeSubs : List String) : List String :=
  let excludedFiles := excludePats.flatMap glob
  let matchingFiles := (includePats.flatMap glob).filter
    fun f => !(decide (f ∈ excludedFiles))
  let afterDiscards := matchingFiles.filter
    fun f => !(decide (f = scriptPath)) && !(decide (f = outputPath))
  (sortStrings afterDiscards).filter
    fun f => !(excludeSubs.any fun pat => strContains f pat)

/-- C3: the selection never contains a path matched by any exclude glob, nor
a path whose string form contains any exclude substring — exclusion wins
over inclusion for every configuration of patterns and every filesystem. -/
theorem c3_exclusion_always_wins (glob : String → List String)
    (scriptPath outputPath : String)
    (includePats excludePats excludeSubs : List String) (f : String)
    (hf : f ∈ selectFiles glob scriptPath outputPath includePats excludePats
      excludeSubs) :
    (∀ p ∈ excludePats, f ∉ glob p)
      ∧ ∀ sub ∈ excludeSubs, strContains f sub = false := by
  simp only [selectFiles] at hf
  obtain ⟨hf1, hsubs⟩ := List.mem_filter.mp hf
  rw [mem_sortStrings] at hf1
  obtain ⟨hf2, -⟩ := List.mem_filter.mp hf1
  obtain ⟨-, hnotex⟩ := List.mem_filter.mp hf2
  constructor
  · intro p hp hfg
    have : f ∈ excludePats.flatMap glob := List.mem_flatMap.mpr ⟨p, hp, hfg⟩
    simp [this] at hnotex
  · intro sub hsub
    have := List.any_eq_false.mp (by simpa using hsubs)
    simpa using this sub hsub

def c3glob : String → List String := fun p =>
  if p = "inc" then ["keep.js", "drop.js"]
  else if p = "exc" then ["drop.js"]
  else []

/-- Witness for C3: with one include glob, one exclude glob and one exclude
substring, a selected file is matched by no exclude glob and contains no
exclude substring. -/
theorem c3_witness :
    "keep.js" ∈ selectFiles c3glob "s" "o" ["inc"] ["exc"] ["secret"]
      ∧ (∀ p ∈ ["exc"], "keep.js" ∉ c3glob p)
      ∧ ∀ sub ∈ ["secret"], strContains "keep.js" sub = false :=
  ⟨by decide,
    c3_exclusion_always_wins c3glob "s" "o" ["inc"] ["exc"] ["secret"]
      "keep.js" (by decide)⟩

/-- `EXCLUDED_DIRS` (lines 9-26).  The source wraps the literal list in
`list(set(...))`, which only deduplicates and reorders; selection uses the
list solely through membership tests. -/
def EXCLUDED_DIRS : List String :=
  [".git", "node_modules", ".vscode", ".next", ".pytest_cache", "build",
   ".idea", ".dart_tool", "ios", "android", "web", "macos"]

/-- `EXCLUDED_FILES` (lines 27-45), same `list(set(...))` remark. -/
def EXCLUDED_FILES : List String :=
  [".cursorrules", ".cursorrules-template", "cursorruler.py", ".d.ts",
   ".tool-versions", ".lock", ".env", ".g.dart", ".g.yaml", ".g.json",
   ".freezed.dart", ".arb", "README.md"]

/-- `include_patterns` (lines 135-149). -/
def include_patterns : List String :=
  ["**/*.dart", "**/*.yaml", "**/*.ts", "**/*.tsx", "**/*.json", "**/*.js",
   "**/*.jsx", "**/*.md", "**/*.html", "**/*.css", "**/*.scss", "**/*.less",
   "**/*.styl"]

/-- `exclude_patterns` (lines 151-174), duplicates included. -/
def exclude_patterns : List String :=
  ["**/Makefile", "**/*.md", "**/*.txt", ".vscode/**", "**/node_modules/**",
   "**/.git/**", "**/.cursorrules", "**/.cursorrules-template", "**/*.txt",
   "**/*.env", "**/*.pem", "**/*.pub", "**/*.tfstate", "**/*.tfstate.backup",
   "**/*.tfplan", "**/*.tfplan.json", "build/**", "**/build/**", "ios",
   "android", "web", "macos"]

/-- The selection `main` actually performs, with its hard-coded pattern
lists and substring exclusions. -/
def mainSelection (glob : String → List String)
    (scriptPath outputPath : String) : List String :=
  selectFiles glob scriptPath outputPath include_patterns exclude_patterns
    (EXCLUDED_DIRS ++ EXCLUDED_FILES)

/-- `Path(p).resolve()` relative to a working directory: absolute paths are
kept, relative ones are anchored at the working directory.  (Thin model of
`pathlib.Path.resolve` for the paths exercised here.) -/
def resolveIn (cwd p : String) : String :=
  if p.toList.head? = some '/' then p else cwd ++ "/" ++ p

/-- A filesystem on which the include glob `**/*.json` matches the
pre-existing intermediate output file `out.json`. -/
def c4glob : String → List String := fun p =>
  if p = "**/*.json" then ["out.json"] else []

/-- C4 (refuting the claim for the output file): when the output file is
named `out.json` on the command line and already exists when the globs run,
`main` aggregates it.  `matching_files.discard(output_path)` at line 198
compares the resolved absolute path `/proj/out.json` with the relative glob
result `out.json` and therefore removes nothing. -/
theorem c4_output_path_discard_ineffective :
    "out.json" ∈ mainSelection c4glob "/proj/cursorruler.py" "/proj/out.json"
      ∧ resolveIn "/proj" "out.json" = "/proj/out.json" :=
  ⟨by decide, by decide⟩

/-! ### Template merge (`main`, line 255) -/

/-- The placeholder token of line 255. -/
def placeholderL : List Char := "${CODEBASE}".toList

/-- Python `str.replace(old, new)` on character lists, recursion bounded by
the input length (each step consumes at least one character: a whole match
of the non-empty `old`, or a single character). -/
def pyReplaceF : Nat → List Char → List Char → List Char → List Char
  | 0, _, _, l => l
  | _ + 1, _, _, [] => []
  | n + 1, old, new, c :: rest =>
    if (c :: rest).take old.length = old ∧ 0 < old.length then
      new ++ pyReplaceF n old new ((c :: rest).drop old.length)
    else
      c :: pyReplaceF n old new rest

theorem pyReplaceF_nil (n : Nat) (old new : List Char) :
    pyReplaceF n old new [] = [] := by
  cases n <;> rfl

theorem pyReplaceF_congr (n₁ : Nat) :
    ∀ (l old new : List Char) (n₂ : Nat), l.length ≤ n₁ → l.length ≤ n₂ →
      pyReplaceF n₁ old new l = pyReplaceF n₂ old new l := by
  induction n₁ with
  | zero =>
    intro l old new n₂ h1 _
    have : l = [] := List.length_eq_zero.mp (Nat.le_zero.mp h1)
    subst this
    rw [pyReplaceF_nil, pyReplaceF_nil]
  | succ n ih =>
    intro l old new n₂ h1 h2
    cases l with
    | nil => rw [pyReplaceF_nil, pyReplaceF_nil]
    | cons c rest =>
      cases n₂ with
      | zero => simp at h2
      | succ m =>
        have hr1 : rest.length ≤ n := Nat.le_of_succ_le_succ h1
        have hr2 : rest.length ≤ m := Nat.le_of_succ_le_succ h2
        simp only [pyReplaceF]
        split_ifs with hmatch
        · have hd : ((c :: rest).drop old.length).length ≤ rest.length := by
            rw [List.length_drop, List.length_cons]
            omega
          rw [ih _ _ _ _ (Nat.le_trans hd hr1) (Nat.le_trans hd hr2)]
        · rw [ih _ _ _ _ hr1 hr2]

/-- `template_content.replace("${CODEBASE}", combined_content)` generalized
to any `old`/`new` (line 255): the leftmost-first, non-overlapping global
replace of Python's `str.replace`. -/
def pyReplace (old new l : List Char) : List Char :=
  pyReplaceF l.length old new l

theorem pyReplace_cons (old new : List Char) (c : Char) (rest : List Char) :
    pyReplace old new (c :: rest) =
      if (c :: rest).take old.length = old ∧ 0 < old.length then
        new ++ pyReplace old new ((c :: rest).drop old.length)
      else
        c :: pyReplace old new rest := by
  show pyReplaceF (rest.length + 1) old new (c :: rest) = _
  simp only [pyReplaceF]
  split_ifs with hmatch
  · have hd : ((c :: rest).drop old.length).length ≤ rest.length := by
      rw [List.length_drop, List.length_cons]
      omega
    rw [pyReplaceF_congr _ _ _ _ _ hd (Nat.le_refl _)]
    rfl
  · rfl

theorem pyReplace_skip (old new : List Char) (hh : old.head? = some '$')
    (a rest : List Char) : '$' ∉ a →
    pyReplace old new (a ++ rest) = a ++ pyReplace old new rest := by
  induction a with
  | nil => intro _; rfl
  | cons c a' ih =>
    intro ha
    have hc : c ≠ '$' := fun h => ha (h ▸ List.mem_cons_self c a')
    have ha' : '$' ∉ a' := fun h => ha (List.mem_cons_of_mem c h)
    have hno : ¬((c :: (a' ++ rest)).take old.length = old
        ∧ 0 < old.length) := by
      rintro ⟨htake, hpos⟩
      rcases hol : old.length with - | k
      · omega
      · rw [hol, List.take_succ_cons] at htake
        rw [← htake] at hh
        simp at hh
        exact hc hh
    rw [List.cons_append, pyReplace_cons, if_neg hno, ih ha']
    rfl

theorem pyReplace_match (old new rest : List Char) (h0 : 0 < old.length) :
    pyReplace old new (old ++ rest) = new ++ pyReplace old new rest := by
  cases hold : old with
  | nil => rw [hold] at h0; simp at h0
  | cons o ot =>
    subst hold
    rw [List.cons_append, pyReplace_cons,
      if_pos (by
        rw [← List.cons_append]
        exact ⟨List.take_left _ _, by simp⟩),
      ← List.cons_append, List.drop_left]

theorem pyReplace_no_match (old new c : List Char) (hh : old.head? = some '$')
    (hc : '$' ∉ c) : pyReplace old new c = c := by
  have h := pyReplace_skip old new hh c [] hc
  rw [List.append_nil] at h
  rw [h]
  show c ++ pyReplaceF 0 old new [] = c
  rw [pyReplaceF_nil, List.append_nil]

/-- C7: the merge step's `str.replace` substitutes **every** occurrence of
`${CODEBASE}` by the payload.  For a template consisting of two occurrences
of the placeholder separated by `$`-free text, both occurrences are
replaced. -/
theorem c7_replace_is_global (payload a b c : List Char)
    (ha : '$' ∉ a) (hb : '$' ∉ b) (hc : '$' ∉ c) :
    pyReplace placeholderL payload
        (a ++ placeholderL ++ b ++ placeholderL ++ c)
      = a ++ payload ++ b ++ payload ++ c := by
  have hh : placeholderL.head? = some '$' := by decide
  have h0 : 0 < placeholderL.length := by decide
  simp only [List.append_assoc]
  rw [pyReplace_skip _ _ hh a _ ha, pyReplace_match _ _ _ h0,
    pyReplace_skip _ _ hh b _ hb, pyReplace_match _ _ _ h0,
    pyReplace_no_match _ _ c hh hc]

/-- Witness for C7: the spec's template example with two placeholder
occurrences; both become `X`. -/
theorem c7_witness :
    ('$' ∉ "Header\n".toList)
      ∧ pyReplace placeholderL ['X']
          ("Header\n".toList ++ placeholderL ++ "\nMid\n".toList
            ++ placeholderL ++ "\nFooter".toList)
        = "Header\n".toList ++ ['X'] ++ "\nMid\n".toList ++ ['X']
            ++ "\nFooter".toList :=
  ⟨by decide,
    c7_replace_is_global ['X'] "Header\n".toList "\nMid\n".toList
      "\nFooter".toList (by decide) (by decide) (by decide)⟩

/-! ### Aggregation (`main`, lines 215-229) -/

/-- The header block `f"\n=== {file} ===\n\n"` of line 219. -/
def headerFor (f : String) : List Char :=
  "\n=== ".toList ++ f.toList ++ " ===\n\n".toList

/-- `file.suffix` of `pathlib`: the name after the last `/`. -/
def pyName (p : String) : List Char :=
  (p.toList.reverse.takeWhile fun c => c ≠ '/').reverse

/-- `file.suffix.lower()` (line 63): the extension of the final path
component, empty when the name has no dot, starts with its only dot, or ends
with a dot — as in `PurePath.suffix` — then lower-cased. -/
def pySuffix (p : String) : String :=
  let name := pyName p
  let afterDot := name.reverse.takeWhile fun c => c ≠ '.'
  if afterDot.length = name.length then ""
  else
    let i := name.length - 1 - afterDot.length
    if 0 < i ∧ i < name.length - 1 then
      String.mk ((name.drop i).map Char.toLower)
    else ""

/-- What one run of the aggregation loop (lines 215-227) writes after the
substring filter: the concatenated header/content blocks, the number of
successfully processed files (`processed_count`), and the per-file errors
reported by the `except` clause, in loop order.  `read` abstracts
`open(file).read()`, returning the content or the exception message. -/
structure AggResult where
  output : List Char
  count : Nat
  errors : List (String × String)
  deriving DecidableEq, Repr

/-- The aggregation loop (lines 215-227): the header is written first
(line 219), then the file is read inside `try` — on success the processed
content follows the header and the counter increments; on failure the error
is recorded with the file identity and the loop continues with the
remaining files. -/
def aggregateFiles (read : String → Except String (List Char)) :
    List String → AggResult
  | [] => ⟨[], 0, []⟩
  | f :: rest =>
    let r := aggregateFiles read rest
    match read f with
    | Except.ok content =>
      ⟨headerFor f ++ process_file_content (pySuffix f) content ++ r.output,
        r.count + 1, r.errors⟩
    | Except.error e =>
      ⟨headerFor f ++ r.output, r.count, (f, e) :: r.errors⟩

theorem aggregateFiles_append (read : String → Except String (List Char))
    (xs ys : List String) :
    aggregateFiles read (xs ++ ys) =
      ⟨(aggregateFiles read xs).output ++ (aggregateFiles read ys).output,
        (aggregateFiles read xs).count + (aggregateFiles read ys).count,
        (aggregateFiles read xs).errors ++ (aggregateFiles read ys).errors⟩ := by
  induction xs with
  | nil => simp [aggregateFiles]
  | cons f xs' ih =>
    rcases hr : read f with e | content
    · simp only [List.cons_append, aggregateFiles, hr]
      simp [ih, AggResult.mk.injEq, List.append_assoc]
    · simp only [List.cons_append, aggregateFiles, hr]
      simp [ih, AggResult.mk.injEq, List.append_assoc]
      omega

/-- C8: a failing read is non-fatal.  If reading `bad` fails with `e`, the
run's output is the output for the files before it, then `bad`'s header with
no content, then the output for the files after it — every later file is
still processed; the success counter counts only the other files; and the
error is recorded against `bad`'s identity. -/
theorem c8_failed_read_skipped_run_continues
    (read : String → Except String (List Char)) (pre post : List String)
    (bad e : String) (he : read bad = Except.error e) :
    (aggregateFiles read (pre ++ bad :: post)).output
        = (aggregateFiles read pre).output ++ headerFor bad
            ++ (aggregateFiles read post).output
      ∧ (aggregateFiles read (pre ++ bad :: post)).count
          = (aggregateFiles read pre).count + (aggregateFiles read post).count
      ∧ (aggregateFiles read (pre ++ bad :: post)).errors
          = (aggregateFiles read pre).errors
              ++ (bad, e) :: (aggregateFiles read post).errors := by
  rw [aggregateFiles_append read pre (bad :: post)]
  refine ⟨?_, ?_, ?_⟩ <;> simp [aggregateFiles, he, List.append_assoc]

def c8read : String → Except String (List Char) := fun f =>
  if f = "bad.js" then Except.error "boom" else Except.ok ['y']

/-- Witness for C8: with `bad.js` unreadable between `a.js` and `b.js`, the
output decomposes around `bad.js`'s bare header. -/
theorem c8_witness :
    (aggregateFiles c8read (["a.js"] ++ "bad.js" :: ["b.js"])).output
      = (aggregateFiles c8read ["a.js"]).output ++ headerFor "bad.js"
          ++ (aggregateFiles c8read ["b.js"]).output :=
  (c8_failed_read_skipped_run_continues c8read ["a.js"] ["b.js"] "bad.js"
    "boom" (by rfl)).1

/-- C9: the header line is written before the read is attempted (line 219
precedes the `try` of line 220), so a file whose read fails still
contributes a header block with an empty body: alone it produces exactly its
header, and in a run its header is followed directly by the output for the
remaining files. -/
theorem c9_header_precedes_read (read : String → Except String (List Char))
    (f e : String) (rest : List String) (he : read f = Except.error e) :
    (aggregateFiles read (f :: rest)).output
        = headerFor f ++ (aggregateFiles read rest).output
      ∧ (aggregateFiles read [f]).output = headerFor f := by
  constructor
  · simp [aggregateFiles, he]
  · simp [aggregateFiles, he]

def c9read : String → Except String (List Char) := fun f =>
  if f = "gone.ts" then Except.error "missing" else Except.ok ['z']

/-- Witness for C9: the unreadable `gone.ts` still gets its header block. -/
theorem c9_witness :
    (aggregateFiles c9read ["gone.ts", "ok.ts"]).output
      = headerFor "gone.ts" ++ (aggregateFiles c9read ["ok.ts"]).output :=
  (c9_header_precedes_read c9read "gone.ts" "missing" ["ok.ts"]
    (by rfl)).1

/-! ### C2: idempotence of the normalizer on comment-free input

The proof factors the scanner (on comment-free input, where the four
comment branches never fire) through `scanE`, which returns the emitted
characters in order, tracking `prev` (previous input character) and `last`
(previous emitted character, i.e. head of the scanner's reversed buffer)
separately.  `GoodI` characterizes "already normalized" text: rescanning a
`GoodI` list emits every character unchanged (`good_rescan`), and the first
pass always produces a `GoodI` list (`scanE_good`). -/

/-- Emission-level view of the scanner on comment-free text: the characters
appended to the buffer, in order.  `last` is the head of the reversed buffer
(`none` when the buffer is empty). -/
def scanE : Bool → Option Char → Option Char → Option Char → List Char →
    List Char
  | _, _, _, _, [] => []
  | inStr, delim, prev, last, c :: rest =>
    if isQuoteChar c = true ∧ prev ≠ some bslash then
      (if inStr = false then
        c :: scanE true (some c) (some c) (some c) rest
      else if some c = delim then
        c :: scanE false delim (some c) (some c) rest
      else
        c :: scanE true delim (some c) (some c) rest)
    else if pyIsSpace c = true ∧ inStr = false then
      (if lastNotSpace last = true then
        ' ' :: scanE inStr delim (some c) (some ' ') rest
      else
        scanE inStr delim (some c) last rest)
    else
      c :: scanE inStr delim (some c) (some c) rest

/-- Normal form for rescanning: scanning the list in state
(`inStr`, `delim`) with previous emitted character `last` emits every
character unchanged.  The cases mirror the scanner's branches; `other`
additionally records that no comment pair starts at an emitted `/`. -/
inductive GoodI : Bool → Option Char → Option Char → List Char → Prop where
  | nil (inStr : Bool) (delim last : Option Char) : GoodI inStr delim last []
  | qopen (delim last : Option Char) (c : Char) (rest : List Char)
      (hq : isQuoteChar c = true) (hesc : last ≠ some bslash)
      (ih : GoodI true (some c) (some c) rest) :
      GoodI false delim last (c :: rest)
  | qclose (delim last : Option Char) (c : Char) (rest : List Char)
      (hq : isQuoteChar c = true) (hesc : last ≠ some bslash)
      (hdelim : some c = delim)
      (ih : GoodI false delim (some c) rest) :
      GoodI true delim last (c :: rest)
  | qstay (delim last : Option Char) (c : Char) (rest : List Char)
      (hq : isQuoteChar c = true) (hesc : last ≠ some bslash)
      (hdelim : ¬(some c = delim))
      (ih : GoodI true delim (some c) rest) :
      GoodI true delim last (c :: rest)
  | sp (delim last : Option Char) (u : Char) (rest : List Char)
      (hl : last = some u) (hls : pyIsSpace u = false)
      (ih : GoodI false delim (some ' ') rest) :
      GoodI false delim last (' ' :: rest)
  | other (inStr : Bool) (delim last : Option Char) (c : Char)
      (rest : List Char)
      (hnq : isQuoteChar c = true → last = some bslash)
      (hns : pyIsSpace c = true → inStr = true)
      (hpf : inStr = false → last = some '/' → c ≠ '/' ∧ c ≠ '*')
      (ih : GoodI inStr delim (some c) rest) :
      GoodI inStr delim last (c :: rest)

theorem quote_not_slash {c : Char} (h : isQuoteChar c = true) :
    c ≠ '/' ∧ c ≠ '*' := by
  simp only [isQuoteChar, Bool.or_eq_true, decide_eq_true_eq] at h
  rcases h with (rfl | rfl) | rfl <;> exact ⟨by decide, by decide⟩

theorem quote_not_space {c : Char} (h : isQuoteChar c = true) :
    pyIsSpace c = false := by
  simp only [isQuoteChar, Bool.or_eq_true, decide_eq_true_eq] at h
  rcases h with (rfl | rfl) | rfl <;> decide

/-- After an emitted `/` outside a string, a `GoodI` continuation never
starts with `/` or `*`. -/
theorem good_slash_next {delim : Option Char} {c₂ : Char} {rest₂ : List Char}
    (h : GoodI false delim (some '/') (c₂ :: rest₂)) :
    c₂ ≠ '/' ∧ c₂ ≠ '*' := by
  cases h with
  | qopen _ _ _ _ hq _ _ => exact quote_not_slash hq
  | sp _ _ u _ hl hls _ => exact ⟨by decide, by decide⟩
  | other _ _ _ _ _ _ _ hpf _ => exact hpf rfl rfl

/-- Rescanning a `GoodI` list is the identity on emissions: the final buffer
is the reversed list on top of the starting buffer.  `acc.head? = prev`
holds because in a rescan every consumed character was just emitted. -/
theorem good_rescan :
    ∀ (l : List Char) (inStr : Bool) (delim : Option Char) (acc : List Char)
      (prev : Option Char),
      GoodI inStr delim prev l → acc.head? = prev →
      (scanLoop ⟨false, inStr, delim, acc⟩ prev l).buffer
        = l.reverse ++ acc := by
  intro l
  induction l with
  | nil =>
    intro inStr delim acc prev _ _
    rw [scanLoop_nil]
    simp
  | cons c rest ih =>
    intro inStr delim acc prev hg hacc
    have hpair : ∀ d, inStr = false → c = '/' → rest.head? = some d →
        d ≠ '/' ∧ d ≠ '*' := by
      intro d hIS hc hd
      subst hc hIS
      cases rest with
      | nil => simp at hd
      | cons c₂ r₂ =>
        simp only [List.head?_cons, Option.some.injEq] at hd
        subst hd
        cases hg with
        | qopen _ _ _ _ hq _ _ => exact absurd hq (by decide)
        | other _ _ _ _ _ _ _ _ ihg => exact good_slash_next ihg
    rw [scanLoop_cons]
    dsimp only
    rw [if_neg (by
      rintro ⟨hc, hh, hIS⟩
      exact (hpair '*' hIS hc hh).2 rfl)]
    rw [if_neg (by rintro ⟨-, -, h⟩; exact Bool.false_ne_true h)]
    rw [if_neg Bool.false_ne_true]
    rw [if_neg (by
      rintro ⟨hc, hh, hIS⟩
      exact (hpair '/' hIS hc hh).1 rfl)]
    cases hg with
    | qopen _ _ _ _ hq hesc ihg =>
      rw [if_pos ⟨hq, hacc ▸ hesc⟩, if_pos rfl]
      rw [ih _ _ (c :: acc) _ ihg rfl]
      simp
    | qclose _ _ _ _ hq hesc hdelim ihg =>
      rw [if_pos ⟨hq, hacc ▸ hesc⟩, if_neg (by decide), if_pos hdelim]
      rw [ih _ _ (c :: acc) _ ihg rfl]
      simp
    | qstay _ _ _ _ hq hesc hdelim ihg =>
      rw [if_pos ⟨hq, hacc ▸ hesc⟩, if_neg (by decide), if_neg hdelim]
      rw [ih _ _ (c :: acc) _ ihg rfl]
      simp
    | sp _ _ u _ hl hls ihg =>
      rw [if_neg (by rintro ⟨hq, -⟩; exact absurd hq (by decide))]
      rw [if_pos ⟨by decide, rfl⟩]
      rw [if_pos (by rw [hacc, hl]; simp [lastNotSpace, hls])]
      rw [ih _ _ (' ' :: acc) _ ihg rfl]
      simp
    | other _ _ _ _ _ hnq hns hpf ihg =>
      rw [if_neg (by
        rintro ⟨hq, hne⟩
        exact hne (hacc ▸ hnq hq))]
      rw [if_neg (by
        rintro ⟨hsp, hIS⟩
        rw [hns hsp] at hIS
        exact absurd hIS (by decide))]
      rw [ih _ _ (c :: acc) _ ihg rfl]
      simp

/-- On comment-free input the scanner loop's buffer is exactly the reversed
emission list of `scanE` on top of the starting buffer (the four comment
branches never fire). -/
theorem scanLoop_to_scanE :
    ∀ (l : List Char) (inStr : Bool) (delim : Option Char)
      (prev : Option Char) (acc : List Char),
      hasCommentSeq l = false →
      (scanLoop ⟨false, inStr, delim, acc⟩ prev l).buffer
        = (scanE inStr delim prev acc.head? l).reverse ++ acc := by
  intro l
  induction l with
  | nil =>
    intro inStr delim prev acc _
    rw [scanLoop_nil]
    simp [scanE]
  | cons c rest ih =>
    intro inStr delim prev acc hcs
    have hcs' : hasCommentSeq rest = false := hasCommentSeq_tail hcs
    rw [scanLoop_cons]
    dsimp only
    rw [if_neg (by
      rintro ⟨rfl, hh, -⟩
      cases rest with
      | nil => simp at hh
      | cons c₂ r₂ =>
        simp only [List.head?_cons, Option.some.injEq] at hh
        subst hh
        exact hasCommentSeq_pair hcs ⟨rfl, Or.inr rfl⟩)]
    rw [if_neg (by rintro ⟨-, -, h⟩; exact Bool.false_ne_true h)]
    rw [if_neg Bool.false_ne_true]
    rw [if_neg (by
      rintro ⟨rfl, hh, -⟩
      cases rest with
      | nil => simp at hh
      | cons c₂ r₂ =>
        simp only [List.head?_cons, Option.some.injEq] at hh
        subst hh
        exact hasCommentSeq_pair hcs ⟨rfl, Or.inl rfl⟩)]
    simp only [scanE]
    by_cases hq : isQuoteChar c = true ∧ prev ≠ some bslash
    · rw [if_pos hq, if_pos hq]
      by_cases hopen : inStr = false
      · rw [if_pos hopen, if_pos hopen]
        rw [ih true (some c) (some c) (c :: acc) hcs']
        simp
      · rw [if_neg hopen, if_neg hopen]
        have hT : inStr = true := by
          cases inStr
          · exact absurd rfl hopen
          · rfl
        subst hT
        by_cases hclose : some c = delim
        · rw [if_pos hclose, if_pos hclose]
          rw [ih false delim (some c) (c :: acc) hcs']
          simp
        · rw [if_neg hclose, if_neg hclose]
          rw [ih true delim (some c) (c :: acc) hcs']
          simp
    · rw [if_neg hq, if_neg hq]
      by_cases hsp : pyIsSpace c = true ∧ inStr = false
      · rw [if_pos hsp, if_pos hsp]
        by_cases hemit : lastNotSpace acc.head? = true
        · rw [if_pos hemit, if_pos hemit]
          rw [ih inStr delim (some c) (' ' :: acc) hcs']
          simp
        · rw [if_neg hemit, if_neg hemit]
          rw [ih inStr delim (some c) acc hcs']
      · rw [if_neg hsp, if_neg hsp]
        rw [ih inStr delim (some c) (c :: acc) hcs']
        simp

/-- Relation between the previous input character and the previous emitted
character during a scan: they agree unless the previous input character was
whitespace that was collapsed or dropped (in which case the last emitted
character, if any, is whitespace as well). -/
def Rrel (prev last : Option Char) : Prop :=
  prev = last ∨ (∃ w, prev = some w ∧ pyIsSpace w = true
    ∧ (last = none ∨ ∃ u, last = some u ∧ pyIsSpace u = true))

theorem Rrel_not_bslash {prev last : Option Char} (hR : Rrel prev last)
    (h : prev ≠ some bslash) : last ≠ some bslash := by
  rcases hR with rfl | ⟨w, hw, hws, hl⟩
  · exact h
  · rcases hl with rfl | ⟨u, hu, hus⟩
    · simp
    · subst hu
      intro heq
      rw [Option.some.inj heq] at hus
      exact absurd hus (by decide)

theorem Rrel_bslash_back {prev last : Option Char} (hR : Rrel prev last)
    (h : prev = some bslash) : last = some bslash := by
  rcases hR with rfl | ⟨w, hw, hws, -⟩
  · exact h
  · rw [h] at hw
    rw [← Option.some.inj hw] at hws
    exact absurd hws (by decide)

/-- First-pass normality: on comment-free input the emission list of `scanE`
is in normal form for rescanning. -/
theorem scanE_good :
    ∀ (l : List Char) (inStr : Bool) (delim : Option Char)
      (prev last : Option Char),
      hasCommentSeq l = false →
      Rrel prev last →
      (last = some '/' → prev = some '/') →
      (prev = some '/' → ∀ d, l.head? = some d → d ≠ '/' ∧ d ≠ '*') →
      GoodI inStr delim last (scanE inStr delim prev last l) := by
  intro l
  induction l with
  | nil =>
    intro inStr delim prev last _ _ _ _
    exact GoodI.nil _ _ _
  | cons c rest ih =>
    intro inStr delim prev last hcs hR hSl hBP
    have hcs' : hasCommentSeq rest = false := hasCommentSeq_tail hcs
    simp only [scanE]
    by_cases hq : isQuoteChar c = true ∧ prev ≠ some bslash
    · have hlesc : last ≠ some bslash := Rrel_not_bslash hR hq.2
      have hBPq : some c = some '/' → ∀ d, rest.head? = some d →
          d ≠ '/' ∧ d ≠ '*' := by
        intro h
        exact absurd (Option.some.inj h) (quote_not_slash hq.1).1
      rw [if_pos hq]
      by_cases hopen : inStr = false
      · rw [if_pos hopen]
        subst hopen
        exact GoodI.qopen delim last c _ hq.1 hlesc
          (ih true (some c) (some c) (some c) hcs' (Or.inl rfl)
            (fun h => h) hBPq)
      · rw [if_neg hopen]
        have hT : inStr = true := by
          cases inStr
          · exact absurd rfl hopen
          · rfl
        subst hT
        by_cases hclose : some c = delim
        · rw [if_pos hclose]
          exact GoodI.qclose delim last c _ hq.1 hlesc hclose
            (ih false delim (some c) (some c) hcs' (Or.inl rfl)
              (fun h => h) hBPq)
        · rw [if_neg hclose]
          exact GoodI.qstay delim last c _ hq.1 hlesc hclose
            (ih true delim (some c) (some c) hcs' (Or.inl rfl)
              (fun h => h) hBPq)
    · rw [if_neg hq]
      by_cases hsp : pyIsSpace c = true ∧ inStr = false
      · obtain ⟨hspc, hIS⟩ := hsp
        subst hIS
        rw [if_pos ⟨hspc, rfl⟩]
        have hBPw : some c = some '/' → ∀ d, rest.head? = some d →
            d ≠ '/' ∧ d ≠ '*' := by
          intro h
          rw [Option.some.inj h] at hspc
          exact absurd hspc (by decide)
        by_cases hemit : lastNotSpace last = true
        · rw [if_pos hemit]
          rcases last with - | u
          · exact absurd hemit (by decide)
          · have hus : pyIsSpace u = false := by
              simpa [lastNotSpace] using hemit
            exact GoodI.sp delim (some u) u _ rfl hus
              (ih false delim (some c) (some ' ') hcs'
                (Or.inr ⟨c, rfl, hspc, Or.inr ⟨' ', rfl, by decide⟩⟩)
                (fun h => absurd (Option.some.inj h) (by decide))
                hBPw)
        · rw [if_neg hemit]
          have hlastws : last = none
              ∨ ∃ u, last = some u ∧ pyIsSpace u = true := by
            rcases hlast : last with - | u
            · exact Or.inl rfl
            · refine Or.inr ⟨u, rfl, ?_⟩
              rw [hlast] at hemit
              simpa [lastNotSpace] using hemit
          refine ih false delim (some c) last hcs'
            (Or.inr ⟨c, rfl, hspc, hlastws⟩) ?_ hBPw
          intro h
          rw [h] at hemit
          exact absurd (by decide : lastNotSpace (some '/') = true) hemit
      · rw [if_neg hsp]
        refine GoodI.other inStr delim last c _ ?_ ?_ ?_ ?_
        · intro hqc
          have hprev : prev = some bslash := by
            by_contra hne
            exact hq ⟨hqc, hne⟩
          exact Rrel_bslash_back hR hprev
        · intro hspc
          by_contra hne
          rw [Bool.not_eq_true] at hne
          exact hsp ⟨hspc, hne⟩
        · intro hIS hl
          exact hBP (hSl hl) c rfl
        · refine ih inStr delim (some c) (some c) hcs' (Or.inl rfl)
            (fun h => h) ?_
          intro h d hd
          have hc : c = '/' := Option.some.inj h
          subst hc
          cases rest with
          | nil => simp at hd
          | cons c₂ r₂ =>
            simp only [List.head?_cons, Option.some.injEq] at hd
            subst hd
            constructor
            · intro h2
              exact hasCommentSeq_pair hcs ⟨rfl, Or.inl h2⟩
            · intro h2
              exact hasCommentSeq_pair hcs ⟨rfl, Or.inr h2⟩

/-- Starting with an empty buffer outside a string, the first emitted
character is never whitespace (leading whitespace is dropped while the
buffer is empty). -/
theorem scanE_head_not_space :
    ∀ (l : List Char) (delim prev : Option Char) (h : Char),
      (scanE false delim prev none l).head? = some h → pyIsSpace h = false := by
  intro l
  induction l with
  | nil =>
    intro delim prev h hh
    simp [scanE] at hh
  | cons c rest ih =>
    intro delim prev h
    simp only [scanE]
    by_cases hq : isQuoteChar c = true ∧ prev ≠ some bslash
    · rw [if_pos hq, if_pos trivial]
      intro hh
      simp only [List.head?_cons, Option.some.injEq] at hh
      subst hh
      exact quote_not_space hq.1
    · rw [if_neg hq]
      by_cases hsp : pyIsSpace c = true
      · rw [if_pos ⟨hsp, trivial⟩, if_neg (by decide)]
        exact ih delim (some c) h
      · rw [if_neg (by
          rintro ⟨hsp2, -⟩
          exact hsp hsp2)]
        intro hh
        simp only [List.head?_cons, Option.some.injEq] at hh
        subst hh
        exact Bool.not_eq_true _ ▸ hsp

/-- `GoodI` is closed under dropping a suffix. -/
theorem goodI_of_append :
    ∀ (l₁ l₂ : List Char) (inStr : Bool) (delim last : Option Char),
      GoodI inStr delim last (l₁ ++ l₂) → GoodI inStr delim last l₁ := by
  intro l₁
  induction l₁ with
  | nil =>
    intro l₂ inStr delim last _
    exact GoodI.nil _ _ _
  | cons c r ih =>
    intro l₂ inStr delim last hg
    rw [List.cons_append] at hg
    cases hg with
    | qopen _ _ _ _ hq hesc ihg =>
      exact GoodI.qopen _ _ _ _ hq hesc (ih _ _ _ _ ihg)
    | qclose _ _ _ _ hq hesc hdelim ihg =>
      exact GoodI.qclose _ _ _ _ hq hesc hdelim (ih _ _ _ _ ihg)
    | qstay _ _ _ _ hq hesc hdelim ihg =>
      exact GoodI.qstay _ _ _ _ hq hesc hdelim (ih _ _ _ _ ihg)
    | sp _ _ u _ hl hls ihg =>
      exact GoodI.sp _ _ u _ hl hls (ih _ _ _ _ ihg)
    | other _ _ _ _ _ hnq hns hpf ihg =>
      exact GoodI.other _ _ _ _ _ hnq hns hpf (ih _ _ _ _ ihg)

theorem head_dropWhile_false (p : Char → Bool) :
    ∀ (l : List Char) (h : Char), (l.dropWhile p).head? = some h →
      p h = false := by
  intro l
  induction l with
  | nil =>
    intro h hh
    simp at hh
  | cons c rest ih =>
    intro h hh
    by_cases hc : p c
    · rw [List.dropWhile_cons_of_pos hc] at hh
      exact ih h hh
    · rw [List.dropWhile_cons_of_neg hc] at hh
      simp only [List.head?_cons, Option.some.injEq] at hh
      subst hh
      exact Bool.not_eq_true _ ▸ hc

theorem dropWhile_idem (p : Char → Bool) (l : List Char) :
    (l.dropWhile p).dropWhile p = l.dropWhile p := by
  cases hd : l.dropWhile p with
  | nil => rfl
  | cons c t =>
    have hc : p c = false := head_dropWhile_false p l c (by rw [hd]; rfl)
    rw [List.dropWhile_cons_of_neg (by simp [hc])]

theorem dropWhile_of_head_false {p : Char → Bool} {l : List Char}
    (h : ∀ c, l.head? = some c → p c = false) : l.dropWhile p = l := by
  cases l with
  | nil => rfl
  | cons c rest =>
    rw [List.dropWhile_cons_of_neg (by simp [h c rfl])]

/-- A stripped list is a prefix of the original once the original has no
leading whitespace. -/
theorem pyStripList_append_of_head (l : List Char)
    (hns : ∀ h, l.head? = some h → pyIsSpace h = false) :
    pyStripList l ++ (l.reverse.takeWhile pyIsSpace).reverse = l := by
  unfold pyStripList
  rw [dropWhile_of_head_false hns]
  rw [← List.reverse_append, List.takeWhile_append_dropWhile,
    List.reverse_reverse]

theorem pyStripList_nil : pyStripList [] = [] := rfl

/-- Stripping is idempotent on scanner output (whose head is not
whitespace). -/
theorem pyStripList_idem_of_head (l : List Char)
    (hns : ∀ h, l.head? = some h → pyIsSpace h = false) :
    pyStripList (pyStripList l) = pyStripList l := by
  have hdec := pyStripList_append_of_head l hns
  cases hout : pyStripList l with
  | nil => rw [pyStripList_nil]
  | cons c t =>
    have hhead : l.head? = some c := by
      rw [← hdec, hout]
      rfl
    have hcns : pyIsSpace c = false := hns c hhead
    have hrev : (pyStripList l).reverse = l.reverse.dropWhile pyIsSpace := by
      unfold pyStripList
      rw [dropWhile_of_head_false hns, List.reverse_reverse]
    have h1 : pyStripList (c :: t)
        = ((c :: t).reverse.dropWhile pyIsSpace).reverse := by
      unfold pyStripList
      rw [show List.dropWhile pyIsSpace (c :: t) = c :: t from
        dropWhile_of_head_false (by
          intro d hd
          simp only [List.head?_cons, Option.some.injEq] at hd
          subst hd
          exact hcns)]
    rw [h1, ← hout, hrev, dropWhile_idem, ← hrev, List.reverse_reverse]

/-- C2: on input with balanced quotes (the scanner ends outside any string)
and no comment sequences, structured normalization is idempotent:
normalizing twice yields the same result as normalizing once. -/
theorem c2_normalization_idempotent (s : List Char)
    (_hbal : finalInString s = false) (hcom : hasCommentSeq s = false) :
    normalizeContent (normalizeContent s) = normalizeContent s := by
  have hE := scanLoop_to_scanE s false none none [] hcom
  have h1 : normalizeContent s = pyStripList (scanE false none none none s) := by
    show pyStripList ((scanLoop ⟨false, false, none, []⟩ none s).buffer.reverse)
      = _
    rw [hE]
    simp
  have hg₀ : GoodI false none none (scanE false none none none s) :=
    scanE_good s false none none none hcom (Or.inl rfl) (fun h => h)
      (fun h => absurd h (by simp))
  have hns : ∀ h, (scanE false none none none s).head? = some h →
      pyIsSpace h = false := scanE_head_not_space s none none
  have hdec := pyStripList_append_of_head (scanE false none none none s) hns
  have hg : GoodI false none none
      (pyStripList (scanE false none none none s)) :=
    goodI_of_append _ _ _ _ _ (hdec ▸ hg₀)
  have h2 : normalizeContent (pyStripList (scanE false none none none s))
      = pyStripList (pyStripList (scanE false none none none s)) := by
    show pyStripList ((scanLoop ⟨false, false, none, []⟩ none
      (pyStripList (scanE false none none none s))).buffer.reverse) = _
    rw [good_rescan _ false none [] none hg rfl]
    simp
  rw [h1, h2, pyStripList_idem_of_head _ hns]

/-- Witness for C2: the input `a  "b  c"  d` has balanced quotes and no
comment sequences, and normalizing it twice equals normalizing it once. -/
theorem c2_witness :
    finalInString "a  \"b  c\"  d".toList = false
      ∧ hasCommentSeq "a  \"b  c\"  d".toList = false
      ∧ normalizeContent (normalizeContent "a  \"b  c\"  d".toList)
          = normalizeContent "a  \"b  c\"  d".toList :=
  ⟨by decide, by decide,
    c2_normalization_idempotent "a  \"b  c\"  d".toList (by decide)
      (by decide)⟩
